import Mathlib

/-!
Shallow embedding of the hierarchical chunking engine of the NOSO-QA-SYSTEM
repository (`src/chunking.py`, `fix_overlap.py` and the assembly code in
`chunking.py`), together with theorems settling the frozen claims about it.

Modelling conventions:
* Python `str` values are Lean `String`s; positions and lengths are `Nat`.
  Python's unbounded ints never go negative in the regimes the theorems
  cover, which all assume that the base chunk size exceeds the
  200-character overlap cap, as the shipped default of 1250 does.
* The Unicode-sensitive predicates (`str.islower`, `str.lower`,
  `str.isdigit`) are modelled on the ASCII and Cyrillic ranges that occur
  in the repository's Russian documents.
* `int(remaining * 0.15)` is modelled as `3 * remaining / 20` over `Nat`:
  for every argument at which the `min 200` cap has not already saturated
  the result, the IEEE-double computation agrees with the exact rational
  value, so the two functions are extensionally equal.
-/

/-- The whitespace set of Python's `str.strip()` and of the regex class
`\s`, restricted to ASCII. -/
def pyIsSpace (c : Char) : Bool :=
  c = ' ' || c = '\t' || c = '\n' || c = '\r' || c = '\x0b' || c = '\x0c'

/-- Strip `pyIsSpace` characters from both ends of a character list,
modelling Python's `str.strip()`. -/
def stripList (l : List Char) : List Char :=
  (((l.dropWhile pyIsSpace).reverse.dropWhile pyIsSpace).reverse)

/-- Python's `str.strip()`. -/
def pyStrip (s : String) : String :=
  String.mk (stripList s.data)

/-- Python's `str.islower()` on a single character, modelled for the
ASCII and Cyrillic (U+0430..U+044F, ё U+0451) lowercase ranges found in
the repository's documents. -/
def pyIsLower (c : Char) : Bool :=
  ('a' ≤ c && c ≤ 'z') || (0x430 ≤ c.toNat && c.toNat ≤ 0x44F) || c.toNat = 0x451

/-- Python's `str.lower()` on a single character, modelled for the ASCII
and Cyrillic uppercase ranges found in the repository's documents. -/
def pyToLower (c : Char) : Char :=
  if 'A' ≤ c ∧ c ≤ 'Z' then Char.ofNat (c.toNat + 32)
  else if 0x410 ≤ c.toNat ∧ c.toNat ≤ 0x42F then Char.ofNat (c.toNat + 0x20)
  else if c.toNat = 0x401 then Char.ofNat 0x451
  else c

/-- Sentence-terminating punctuation, the class `[.!?]` used both by
`fix_overlap.py`'s `endswith((".", "!", "?"))` check and by its
sentence-splitting regex. -/
def isTermChar (c : Char) : Bool :=
  c = '.' || c = '!' || c = '?'

/-!
## Embedding of `fix_overlap.py`

A persisted chunk record carries a `text` field and an opaque `metadata`
mapping produced by the enrichment stage; `fix_overlap_in_chunks` only
ever rewrites `text`.
-/

/-- A persisted chunk record, as read from `progress_metadata.json`:
`{text: string, metadata: mapping}`. -/
structure PChunk where
  text : String
  metadata : List (String × String)
  deriving DecidableEq, Repr

/-- `current_chunk_text[0].islower() and not current_chunk_text[0].isdigit()`
with Python's empty-string guard (`first_char = ... if ... else ""`,
`"".islower()` is false). -/
def startsLowercaseB (s : String) : Bool :=
  match s.data with
  | [] => false
  | c :: _ => pyIsLower c && !c.isDigit

/-- `prev_chunk_text.endswith((".", "!", "?"))`. -/
def endsPunctB (s : String) : Bool :=
  match s.data.getLast? with
  | some c => isTermChar c
  | none => false

/-- One splitting pass of `re.split(r"(?<=[.!?])\s+", text)`: a separator
is a maximal whitespace run whose immediately preceding character is
sentence-terminating punctuation.  `skipping` is true while inside a
separator run; `prevTerm` records whether the character just before the
current position is in `[.!?]`. -/
def sentSplitGo (skipping prevTerm : Bool) (acc : List Char) :
    List Char → List (List Char)
  | [] => [acc.reverse]
  | c :: rest =>
    if skipping then
      if pyIsSpace c then sentSplitGo true false acc rest
      else sentSplitGo false (isTermChar c) (c :: acc) rest
    else if prevTerm && pyIsSpace c then
      acc.reverse :: sentSplitGo true false [] rest
    else
      sentSplitGo false (isTermChar c) (c :: acc) rest

/-- `re.split(r"(?<=[.!?])\s+", s)`. -/
def sentSplit (s : String) : List String :=
  (sentSplitGo false false [] s.data).map String.mk

/-- The body of the inner loop of `fix_overlap_in_chunks`: given the chunk
record at index `i-1` **as it stands when index `i` is processed** and the
original record at index `i`, produce the record stored at index `i`. -/
def fixStep (prev cur : PChunk) : PChunk :=
  let prevText := pyStrip prev.text
  let curText := pyStrip cur.text
  if startsLowercaseB curText && !endsPunctB prevText then
    match (sentSplit prevText).getLast? with
    | some lastSentence => { cur with text := pyStrip lastSentence ++ " " ++ curText }
    | none => cur
  else cur

/-- The traversal `for i in range(1, len(chunks))` with in-place mutation:
the record written at `i` becomes the `prev` read at `i+1`. -/
def fixDocAux (prev : PChunk) : List PChunk → List PChunk
  | [] => []
  | cur :: rest =>
    let cur' := fixStep prev cur
    cur' :: fixDocAux cur' rest

/-- The repair pass over one document's chunk list. -/
def fixDoc : List PChunk → List PChunk
  | [] => []
  | c :: rest => c :: fixDocAux c rest

/-- `fix_overlap_in_chunks`, with the persisted JSON mapping modelled as
an insertion-ordered association list from document name to chunk list.
Documents with fewer than 2 chunks are skipped (`continue`). -/
def fix_overlap_in_chunks (docs : List (String × List PChunk)) :
    List (String × List PChunk) :=
  docs.map (fun doc =>
    (doc.1, if doc.2.length < 2 then doc.2 else fixDoc doc.2))

/-- The repair pass's rewrite condition for an adjacent pair: the current
chunk's trimmed text starts with a lowercase letter and the previous
chunk's trimmed text lacks terminal punctuation. -/
def triggerB (prev cur : PChunk) : Bool :=
  startsLowercaseB (pyStrip cur.text) && !endsPunctB (pyStrip prev.text)

/-- No adjacent pair of `prev :: chunks` satisfies the rewrite
condition. -/
def noTrigAux : PChunk → List PChunk → Bool
  | _, [] => true
  | p, c :: rest => !triggerB p c && noTrigAux c rest

/-- No adjacent pair of the chunk list satisfies the rewrite condition. -/
def noTriggerList : List PChunk → Bool
  | [] => true
  | c :: rest => noTrigAux c rest

/-- After one run of the repair pass, no document's chunk list contains
an adjacent pair satisfying the rewrite condition. -/
def noRetrigger (docs : List (String × List PChunk)) : Bool :=
  (fix_overlap_in_chunks docs).all (fun d => noTriggerList d.2)

-- sanity examples (spec §8 worked example, Latin-alphabet analogue)
example :
    fixDoc [⟨"Alpha. beta", []⟩, ⟨"gamma delta.", []⟩] =
      [⟨"Alpha. beta", []⟩, ⟨"beta gamma delta.", []⟩] := by decide

example : sentSplit "Alpha. beta" = ["Alpha.", "beta"] := by decide

example :
    fixDoc [⟨"Документ содержит правила", []⟩, ⟨"регистрации участников.", []⟩] =
      [⟨"Документ содержит правила", []⟩,
       ⟨"Документ содержит правила регистрации участников.", []⟩] := by decide

/-!
## Embedding of `chunking.py`: data model
-/

/-- `Section`: a parsed document section (`chunking.py`). -/
structure Section where
  level : Nat
  number : String
  title : String
  content : String
  parent_path : String := ""
  deriving DecidableEq, Repr

/-- The optional `overlap_info` dictionary attached to non-first chunks
of a multi-chunk section. -/
structure OverlapInfo where
  overlap_size : Nat
  previous_chunk_end : String
  deriving DecidableEq, Repr

/-- `HierarchicalChunk` (`chunking.py`). -/
structure HierarchicalChunk where
  text : String
  section_path : String
  hierarchy_level : Nat
  section_title : String
  keywords : List String
  overlap_info : Option OverlapInfo := none
  deriving DecidableEq, Repr

/-!
## Embedding of `find_word_boundary` and `create_adaptive_chunks`
-/

/-- The boundary characters of `find_word_boundary`: the literal set
`" \t\n"` (narrower than Python's `str.strip` whitespace). -/
def isWB (c : Char) : Bool :=
  c = ' ' || c = '\t' || c = '\n'

/-- Leftward scan of `find_word_boundary`:
`while pos > 0 and text[pos - 1] not in " \t\n": pos -= 1`.
All call sites keep `pos ≤ length`, so the `getD` default is never read. -/
def fwbLeft (text : List Char) : Nat → Nat
  | 0 => 0
  | pos + 1 => if isWB (text.getD pos ' ') then pos + 1 else fwbLeft text pos

/-- Rightward scan of `find_word_boundary`, expressed structurally on the
suffix `text.drop pos`:
`while pos < len(text) and text[pos] not in " \t\n": pos += 1`. -/
def fwbRightGo : List Char → Nat → Nat
  | [], pos => pos
  | c :: rest, pos => if isWB c then pos else fwbRightGo rest (pos + 1)

/-- Rightward scan of `find_word_boundary`. -/
def fwbRight (text : List Char) (pos : Nat) : Nat :=
  fwbRightGo (text.drop pos) pos

/-- `find_word_boundary(text, target_pos, direction)`. -/
def find_word_boundary (text : List Char) (targetPos : Nat) (direction : Int) : Nat :=
  if direction = -1 then fwbLeft text targetPos else fwbRight text targetPos

/-- Python slice `l[a:b]` for `0 ≤ a, b` (clamping at the length, empty
when `b ≤ a`). -/
def pySlice (l : List Char) (a b : Nat) : List Char :=
  (l.drop a).take (b - a)

/-- `', '.join(keywords)`. -/
def commaJoin (keywords : List String) : String :=
  String.intercalate ", " keywords

/-- The title-and-keywords header prepended to every chunk text:
`f"{section_title}\n\nКлючевые слова: {', '.join(keywords)}\n\n"`. -/
def chunkHeader (title : String) (keywords : List String) : String :=
  title ++ "\n\nКлючевые слова: " ++ commaJoin keywords ++ "\n\n"

/-- The adaptive overlap size at offset `start`:
`min(200, int((content_length - start) * 0.15))`, with the float product
modelled exactly (see the header comment). -/
def overlapOf (contentLength start : Nat) : Nat :=
  min 200 (3 * (contentLength - start) / 20)

/-- The chunk end chosen at offset `start`: `min(start + base, L)`,
snapped backward to a word boundary when it falls strictly inside the
content. -/
def chunkEnd (content : List Char) (base start : Nat) : Nat :=
  let e := min (start + base) content.length
  if e < content.length then find_word_boundary content e (-1) else e

/-- The chunk record emitted at offset `start` inside the multi-chunk
loop of `create_adaptive_chunks` (hierarchy fields are placeholders that
the assembler overwrites later, as in the source). -/
def mkChunk (content : List Char) (title : String) (keywords : List String)
    (base start : Nat) : HierarchicalChunk :=
  { text := chunkHeader title keywords ++
      String.mk (pySlice content start (chunkEnd content base start)),
    section_path := title,
    hierarchy_level := 1,
    section_title := title,
    keywords := keywords,
    overlap_info :=
      if 0 < start then
        some { overlap_size := overlapOf content.length start,
               previous_chunk_end :=
                 String.mk (pySlice content (start - overlapOf content.length start) start) }
      else none }

/-- The next loop offset:
`start = max(start + base - overlap, end - overlap)` followed by
`start = find_word_boundary(content, start, 1)`. -/
def nextStart (content : List Char) (base start : Nat) : Nat :=
  find_word_boundary content
    (max (start + base - overlapOf content.length start)
         (chunkEnd content base start - overlapOf content.length start)) 1

/-- The `while start < content_length` loop of `create_adaptive_chunks`,
with an explicit fuel counter standing in for the unbounded Python loop;
`none` means the fuel ran out before the loop exited. -/
def chunkLoop (content : List Char) (title : String) (keywords : List String)
    (base : Nat) : Nat → Nat → List HierarchicalChunk → Option (List HierarchicalChunk)
  | 0, _, _ => none
  | fuel + 1, start, acc =>
    if start < content.length then
      let acc' := acc ++ [mkChunk content title keywords base start]
      if content.length ≤ chunkEnd content base start then some acc'
      else chunkLoop content title keywords base fuel (nextStart content base start) acc'
    else some acc

/-- `create_adaptive_chunks(content, section_title, keywords, base_chunk_size)`. -/
def create_adaptive_chunks (fuel : Nat) (content : String) (section_title : String)
    (keywords : List String) (base_chunk_size : Nat := 1250) :
    Option (List HierarchicalChunk) :=
  if pyStrip content = "" then some []
  else if content.length ≤ base_chunk_size then
    some [{ text := chunkHeader section_title keywords ++ content,
            section_path := section_title,
            hierarchy_level := 1,
            section_title := section_title,
            keywords := keywords }]
  else chunkLoop content.data section_title keywords base_chunk_size fuel 0 []

-- sanity examples
example : create_adaptive_chunks 6 "hello" "T" ["k1", "k2"] =
    some [{ text := "T\n\nКлючевые слова: k1, k2\n\nhello",
            section_path := "T", hierarchy_level := 1, section_title := "T",
            keywords := ["k1", "k2"] }] := by decide

example : create_adaptive_chunks 3 "   " "T" [] = some [] := by decide

/-!
## Embedding of `parse_sections` and the document-level assembly

The heading regex `^(\d+(?:\.\d+)*\.?)\s+(.+?)(?:\n|$)` is applied to a
line that has already been stripped and contains no newline, so it
matches exactly when the line starts with a maximal token
`digits (. digits)* .?` followed by at least one whitespace character and
then at least one further character; group 1 is the numeric token and
group 2 the rest of the line after the whitespace run (the regex cannot
backtrack into a successful match here because every shorter candidate
for group 1 is followed by a digit or a dot, never by whitespace).
-/

/-- Consume the maximal `\d+(?:\.\d+)*` token, the first digit having
already been consumed into `acc` (which is kept reversed).  Returns the
token and the remainder of the line. -/
def numGo (acc : List Char) : List Char → List Char × List Char
  | [] => (acc.reverse, [])
  | c :: rest =>
    if c.isDigit then numGo (c :: acc) rest
    else if c = '.' then
      match rest with
      | d :: rest2 =>
        if d.isDigit then numGo (d :: '.' :: acc) rest2
        else (acc.reverse, c :: rest)
      | [] => (acc.reverse, [c])
    else (acc.reverse, c :: rest)

/-- `header_pattern.match(line)` on a stripped line: `some (number, rest)`
where `number` is group 1 and `rest` is group 2 (before the `.strip()`
that the caller applies). -/
def headerMatch (line : String) : Option (String × String) :=
  match line.data with
  | [] => none
  | c :: restAll =>
    if c.isDigit then
      let q := numGo [c] restAll
      let withDot : List Char × List Char :=
        match q.2 with
        | '.' :: r2 => (q.1 ++ ['.'], r2)
        | _ => q
      match withDot.2 with
      | c2 :: _ =>
        if pyIsSpace c2 then
          let rest := withDot.2.dropWhile pyIsSpace
          if rest = [] then none
          else some (String.mk withDot.1, String.mk rest)
        else none
      | [] => none
    else none

/-- Python `s.split(sep)` for a one-character separator, keeping empty
pieces, on the character list. -/
def splitCharAux (sep : Char) (acc : List Char) : List Char → List (List Char)
  | [] => [acc.reverse]
  | c :: rest =>
    if c = sep then acc.reverse :: splitCharAux sep [] rest
    else splitCharAux sep (c :: acc) rest

/-- Python `s.split(sep)` for a one-character separator. -/
def pySplitChar (sep : Char) (s : String) : List String :=
  (splitCharAux sep [] s.data).map String.mk

/-- Python `number.split(".")`. -/
def pySplitDot (n : String) : List String :=
  pySplitChar '.' n

/-- The hierarchy level assigned to a heading number:
`len(number.split(".")) - 1 if "." in number else 1`. -/
def levelOf (number : String) : Nat :=
  if number.data.contains '.' then (pySplitDot number).length - 1 else 1

/-- The parent-number string searched for:
`".".join(number.split(".")[:-1]) + "."`. -/
def parentNum (number : String) : String :=
  String.intercalate "." (pySplitDot number).dropLast ++ "."

/-- The backward scan `for sec in reversed(sections)` resolving
`parent_path` (empty when no section's number equals `pn`). -/
def findParentRev (pn : String) : List Section → String
  | [] => ""
  | sec :: rest =>
    if sec.number = pn then
      if sec.parent_path ≠ "" then sec.parent_path ++ " > " ++ sec.title
      else sec.title
    else findParentRev pn rest

/-- `parent_path` resolution over the already-emitted section list. -/
def findParent (sections : List Section) (pn : String) : String :=
  findParentRev pn sections.reverse

/-- The loop state of `parse_sections`: emitted sections, the currently
open section, and its accumulated content lines. -/
structure PState where
  sections : List Section
  current : Option Section
  buf : List String
  deriving DecidableEq, Repr

/-- Close the currently open section (trim and store its accumulated
content) and append it to the emitted list. -/
def closeSection (st : PState) : List Section :=
  match st.current with
  | some sec => st.sections ++ [{ sec with content := pyStrip (String.intercalate "\n" st.buf) }]
  | none => st.sections

/-- Append a non-heading line to the open section's buffer; lines before
any heading are dropped. -/
def addContent (st : PState) (line : String) : PState :=
  match st.current with
  | some _ => { st with buf := st.buf ++ [line] }
  | none => st

/-- One iteration of the `while i < len(lines)` loop of `parse_sections`,
processing a single raw line. -/
def parseStep (st : PState) (rawLine : String) : PState :=
  let line := pyStrip rawLine
  if line = "" then st
  else
    match headerMatch line with
    | some nt =>
      let number := nt.1
      let title := pyStrip nt.2
      if title.length < 200 ∧ title.data.count '.' ≤ 1 then
        let sections' := closeSection st
        let level := levelOf number
        let parent_path :=
          if level > 1 then findParent sections' (parentNum number) else ""
        { sections := sections',
          current := some { level := level, number := number, title := title,
                            content := "", parent_path := parent_path },
          buf := [] }
      else addContent st line
    | none => addContent st line

/-- A stripped line is accepted as a real heading: it matches the
heading pattern and its stripped title is shorter than 200 characters
with at most one period. -/
def acceptedHeading (line : String) : Bool :=
  match headerMatch line with
  | some nt => decide ((pyStrip nt.2).length < 200 ∧ (pyStrip nt.2).data.count '.' ≤ 1)
  | none => false

/-- `parse_sections(text)`. -/
def parse_sections (text : String) : List Section :=
  let st := (pySplitChar '\n' text).foldl parseStep ⟨[], none, []⟩
  closeSection st

/-- Python's no-argument `str.split()`: split on maximal whitespace runs,
discarding empty pieces. -/
def pySplitWSAux (acc : List Char) : List Char → List (List Char)
  | [] => if acc = [] then [] else [acc.reverse]
  | c :: rest =>
    if pyIsSpace c then
      if acc = [] then pySplitWSAux [] rest
      else acc.reverse :: pySplitWSAux [] rest
    else pySplitWSAux (c :: acc) rest

/-- Python's no-argument `str.split()`. -/
def pySplitWS (s : String) : List String :=
  (pySplitWSAux [] s.data).map String.mk

/-- `extract_keywords_from_title(title)`: lowercase the title, split on
whitespace, keep words longer than 3 characters, at most 5 of them. -/
def extract_keywords_from_title (title : String) : List String :=
  let words := pySplitWS (String.mk (title.data.map pyToLower))
  (words.filter (fun w => 3 < w.length)).take 5

/-- The assembler's per-chunk field fill: copy the section's level and
build the full breadcrumb path. -/
def assembleChunk (sec : Section) (c : HierarchicalChunk) : HierarchicalChunk :=
  { c with
    hierarchy_level := sec.level,
    section_path :=
      if sec.parent_path ≠ "" then
        sec.parent_path ++ " > " ++ (sec.number ++ " " ++ sec.title)
      else sec.number ++ " " ++ sec.title }

/-- Chunk one section list: keywords from the title, adaptive chunking of
the content under the composite `"<number> <title>"` heading, then the
assembler's field fill. -/
def assembleSections (fuel base : Nat) : List Section → Option (List HierarchicalChunk)
  | [] => some []
  | sec :: rest => do
    let cs ← create_adaptive_chunks fuel sec.content (sec.number ++ " " ++ sec.title)
      (extract_keywords_from_title sec.title) base
    let csRest ← assembleSections fuel base rest
    pure (cs.map (assembleChunk sec) ++ csRest)

/-- `hierarchical_chunk_documents(documents, base_chunk_size)` over an
insertion-ordered association list of documents. -/
def hierarchical_chunk_documents (fuel base : Nat)
    (documents : List (String × String)) :
    Option (List (String × List HierarchicalChunk)) :=
  match documents with
  | [] => some []
  | (name, text) :: rest => do
    let cs ← assembleSections fuel base (parse_sections text)
    let csRest ← hierarchical_chunk_documents fuel base rest
    pure ((name, cs) :: csRest)

-- sanity examples
example : headerMatch "2.3. Beta" = some ("2.3.", "Beta") := by decide
example : headerMatch "2.3 Beta" = some ("2.3", "Beta") := by decide
example : headerMatch "2 Beta" = some ("2", "Beta") := by decide
example : headerMatch "2.Beta" = none := by decide
example : parse_sections "2. Alpha\nsome text\n2.3. Beta\nmore text" =
    [{ level := 1, number := "2.", title := "Alpha", content := "some text", parent_path := "" },
     { level := 2, number := "2.3.", title := "Beta", content := "more text", parent_path := "" }] := by
  decide
example : extract_keywords_from_title "Общие положения договора" =
    ["общие", "положения", "договора"] := by decide

/-!
## Spec-side definitions used to state claims
-/

/-- The count of dot-separated numeric components of a heading number, as
the spec's words define it (`"2."` has one, `"2.3."` has two): the number
of nonempty pieces of the dot-split. -/
def numComponents (number : String) : Nat :=
  ((pySplitDot number).filter (· ≠ "")).length

/-!
## Claim theorems
-/

/-- Claim C1 (code bug): for the document `"2. Alpha\n...\n2.3. Beta\n..."`
the claim (and spec §8) require `section_path = "Alpha > 2.3. Beta"`, but
the code computes the parent lookup key as
`".".join("2.3.".split(".")[:-1]) + "." = "2.3."` — the section's own
number — so the backward scan never finds `"2."` and the emitted chunk has
`parent_path`-free `section_path = "2.3. Beta"` (the `hierarchy_level = 2`
half does hold). -/
theorem claim_C1_code_eval :
    hierarchical_chunk_documents 1 1250 [("d", "2. Alpha\nsome text\n2.3. Beta\nmore text")] =
      some [("d",
        [{ text := "2. Alpha\n\nКлючевые слова: alpha\n\nsome text",
           section_path := "2. Alpha", hierarchy_level := 1,
           section_title := "2. Alpha", keywords := ["alpha"], overlap_info := none },
         { text := "2.3. Beta\n\nКлючевые слова: beta\n\nmore text",
           section_path := "2.3. Beta", hierarchy_level := 2,
           section_title := "2.3. Beta", keywords := ["beta"], overlap_info := none }])] ∧
    parentNum "2.3." = "2.3." ∧
    ("2.3. Beta" : String) ≠ "Alpha > 2.3. Beta" := by
  refine ⟨by decide, by decide, by decide⟩

/-- Claim C2 counterexample: the heading pattern accepts `"2.3 Alpha"`
(number `"2.3"`, no trailing dot); the emitted section has `level = 1`,
not the claimed component count `numComponents "2.3" = 2`. -/
theorem claim_C2_counterexample :
    parse_sections "2.3 Alpha" =
      [{ level := 1, number := "2.3", title := "Alpha", content := "", parent_path := "" }] ∧
    numComponents "2.3" = 2 ∧
    ¬ (∀ sec ∈ parse_sections "2.3 Alpha", sec.level = numComponents sec.number) := by
  refine ⟨by decide, by decide, by decide⟩

/-- The dot-split always has one more piece than there are dots. -/
theorem splitCharAux_length (sep : Char) :
    ∀ (l acc : List Char), (splitCharAux sep acc l).length = l.count sep + 1 := by
  intro l
  induction l with
  | nil => intro acc; simp [splitCharAux]
  | cons c rest ih =>
    intro acc
    by_cases h : c = sep
    · simp [splitCharAux, h, ih, List.count_cons]
    · simp [splitCharAux, h, ih, List.count_cons]

/-- `levelOf` in terms of the dot count. -/
theorem levelOf_eq_count (n : String) :
    levelOf n = if n.data.contains '.' then n.data.count '.' else 1 := by
  unfold levelOf pySplitDot pySplitChar
  rw [List.length_map, splitCharAux_length]
  simp

/-- `addContent` touches only the line buffer. -/
theorem addContent_sections_current (st : PState) (l : String) :
    (addContent st l).sections = st.sections ∧ (addContent st l).current = st.current := by
  unfold addContent
  split <;> simp

/-- Membership in the closed-out section list comes from the emitted list
or from the open section (whose `level` and `number` are unchanged by the
close). -/
theorem mem_closeSection (st : PState) (sec : Section) (h : sec ∈ closeSection st) :
    sec ∈ st.sections ∨
      ∃ c, st.current = some c ∧ sec.level = c.level ∧ sec.number = c.number := by
  unfold closeSection at h
  cases hc : st.current with
  | none => rw [hc] at h; exact Or.inl h
  | some c =>
    rw [hc] at h
    rcases List.mem_append.mp h with h1 | h1
    · exact Or.inl h1
    · rcases List.mem_singleton.mp h1 with rfl
      exact Or.inr ⟨c, rfl, rfl, rfl⟩

/-- One `parseStep` preserves the invariant that every tracked section's
`level` was computed by `levelOf` from its `number`. -/
theorem parseStep_level_inv (st : PState) (l : String)
    (h1 : ∀ sec ∈ st.sections, sec.level = levelOf sec.number)
    (h2 : ∀ sec, st.current = some sec → sec.level = levelOf sec.number) :
    (∀ sec ∈ (parseStep st l).sections, sec.level = levelOf sec.number) ∧
    (∀ sec, (parseStep st l).current = some sec → sec.level = levelOf sec.number) := by
  have hclose : ∀ sec ∈ closeSection st, sec.level = levelOf sec.number := by
    intro sec hs
    rcases mem_closeSection st sec hs with h | ⟨c, hc, he1, he2⟩
    · exact h1 sec h
    · rw [he1, he2]; exact h2 c hc
  unfold parseStep
  by_cases hl : pyStrip l = ""
  · simp only [hl, if_pos rfl]; exact ⟨h1, h2⟩
  · simp only [if_neg hl]
    cases hm : headerMatch (pyStrip l) with
    | none =>
      rcases addContent_sections_current st (pyStrip l) with ⟨ha, hb⟩
      refine ⟨fun sec hs => h1 sec (ha ▸ hs), fun sec hs => h2 sec (hb ▸ hs)⟩
    | some nt =>
      by_cases hacc : (pyStrip nt.2).length < 200 ∧ (pyStrip nt.2).data.count '.' ≤ 1
      · simp only [if_pos hacc]
        refine ⟨hclose, ?_⟩
        intro sec hs
        injection hs with hs
        rw [← hs]
      · simp only [if_neg hacc]
        rcases addContent_sections_current st (pyStrip l) with ⟨ha, hb⟩
        refine ⟨fun sec hs => h1 sec (ha ▸ hs), fun sec hs => h2 sec (hb ▸ hs)⟩

/-- The level invariant holds after folding `parseStep` over any line
list. -/
theorem foldl_level_inv :
    ∀ (lines : List String) (st : PState),
      (∀ sec ∈ st.sections, sec.level = levelOf sec.number) →
      (∀ sec, st.current = some sec → sec.level = levelOf sec.number) →
      (∀ sec ∈ (lines.foldl parseStep st).sections, sec.level = levelOf sec.number) ∧
      (∀ sec, (lines.foldl parseStep st).current = some sec →
        sec.level = levelOf sec.number) := by
  intro lines
  induction lines with
  | nil => intro st h1 h2; exact ⟨h1, h2⟩
  | cons l rest ih =>
    intro st h1 h2
    rcases parseStep_level_inv st l h1 h2 with ⟨g1, g2⟩
    exact ih (parseStep st l) g1 g2

/-- Claim C2 (amended): a section's `level` is the count of `'.'`
characters in `number` when there is at least one, else 1 (this equals
the numeric-component count exactly for numbers with a trailing dot or
with no dot at all; for accepted numbers such as `"2.3"` it is one
less). -/
theorem claim_C2_amended :
    ∀ (text : String), ∀ sec ∈ parse_sections text,
      sec.level = if sec.number.data.contains '.' then sec.number.data.count '.' else 1 := by
  intro text sec hmem
  rw [← levelOf_eq_count]
  unfold parse_sections at hmem
  rcases foldl_level_inv (pySplitChar '\n' text) ⟨[], none, []⟩
      (by intro s hs; cases hs) (by intro s hs; cases hs) with ⟨g1, g2⟩
  rcases mem_closeSection _ sec hmem with h | ⟨c, hc, he1, he2⟩
  · exact g1 sec h
  · rw [he1, he2]; exact g2 c hc

/-- Witness for the amended C2 at a concrete parse. -/
theorem claim_C2_amended_witness :
    ({ level := 1, number := "2.", title := "Alpha", content := "", parent_path := "" } : Section).level =
      if ("2." : String).data.contains '.' then ("2." : String).data.count '.' else 1 :=
  claim_C2_amended "2. Alpha"
    { level := 1, number := "2.", title := "Alpha", content := "", parent_path := "" }
    (by decide)

/-- The rightward word-boundary scan never moves left. -/
theorem fwbRightGo_ge : ∀ (l : List Char) (pos : Nat), pos ≤ fwbRightGo l pos := by
  intro l
  induction l with
  | nil => intro pos; simp [fwbRightGo]
  | cons c rest ih =>
    intro pos
    unfold fwbRightGo
    by_cases h : isWB c
    · simp [h]
    · simp only [h, if_neg]
      exact Nat.le_trans (Nat.le_succ pos) (ih (pos + 1))

/-- The rightward word-boundary scan never moves left. -/
theorem fwbRight_ge (text : List Char) (pos : Nat) : pos ≤ fwbRight text pos :=
  fwbRightGo_ge (text.drop pos) pos

/-- The adaptive overlap size never exceeds the 200-character cap. -/
theorem overlapOf_le (contentLength start : Nat) : overlapOf contentLength start ≤ 200 :=
  Nat.min_le_left 200 _

/-- Strict forward progress of the multi-chunk loop: when the base chunk
size exceeds the 200-character overlap cap, the next start offset is
strictly beyond the current one. -/
theorem nextStart_gt (content : List Char) (base start : Nat) (hb : 200 < base) :
    start < nextStart content base start := by
  have h1 : overlapOf content.length start ≤ 200 := overlapOf_le _ _
  have h2 : start + 1 ≤ start + base - overlapOf content.length start := by omega
  have h3 : start + base - overlapOf content.length start ≤
      max (start + base - overlapOf content.length start)
          (chunkEnd content base start - overlapOf content.length start) :=
    Nat.le_max_left _ _
  have h4 := fwbRight_ge content
    (max (start + base - overlapOf content.length start)
         (chunkEnd content base start - overlapOf content.length start))
  unfold nextStart find_word_boundary
  simp only [if_neg (by decide : ¬ (1 : Int) = -1)]
  omega

/-- With base size above the overlap cap, fuel `content.length - start + 1`
suffices for the multi-chunk loop to finish. -/
theorem chunkLoop_isSome (content : List Char) (title : String) (kws : List String)
    (base : Nat) (hb : 200 < base) :
    ∀ (fuel start : Nat) (acc : List HierarchicalChunk),
      content.length - start < fuel →
      (chunkLoop content title kws base fuel start acc).isSome := by
  intro fuel
  induction fuel with
  | zero => intro start acc h; omega
  | succ n ih =>
    intro start acc h
    unfold chunkLoop
    by_cases hs : start < content.length
    · simp only [if_pos hs]
      by_cases he : content.length ≤ chunkEnd content base start
      · simp [he]
      · simp only [if_neg he]
        have hgt := nextStart_gt content base start hb
        exact ih (nextStart content base start) _ (by omega)
    · simp [hs]

/-- Claim C6: `create_adaptive_chunks` makes strict forward progress at
every loop step and terminates on every content string whenever the base
chunk size exceeds the 200-character overlap cap (as the default 1250
does): fuel `content.length + 1` always suffices. -/
theorem claim_C6_total :
    ∀ (content title : String) (kws : List String) (base : Nat), 200 < base →
      (∀ start, start < content.length → start < nextStart content.data base start) ∧
      (create_adaptive_chunks (content.length + 1) content title kws base).isSome := by
  intro content title kws base hb
  constructor
  · intro start _
    exact nextStart_gt content.data base start hb
  · unfold create_adaptive_chunks
    by_cases h1 : pyStrip content = ""
    · simp [h1]
    · simp only [if_neg h1]
      by_cases h2 : content.length ≤ base
      · simp [h2]
      · simp only [if_neg h2]
        exact chunkLoop_isSome content.data title kws base hb _ 0 []
          (by show content.data.length - 0 < content.data.length + 1; omega)

/-- Witness for C6 at a concrete input. -/
theorem claim_C6_total_witness :
    (∀ start, start < ("hello world" : String).length →
      start < nextStart ("hello world" : String).data 1250 start) ∧
    (create_adaptive_chunks (("hello world" : String).length + 1)
      "hello world" "T" ["k"] 1250).isSome :=
  claim_C6_total "hello world" "T" ["k"] 1250 (by decide)

/-!
### Lemmas about the repair pass
-/

/-- The sentence splitter never returns an empty list. -/
theorem sentSplitGo_ne_nil :
    ∀ (l : List Char) (sk pt : Bool) (acc : List Char),
      sentSplitGo sk pt acc l ≠ [] := by
  intro l
  induction l with
  | nil => intro sk pt acc; simp [sentSplitGo]
  | cons c rest ih =>
    intro sk pt acc
    unfold sentSplitGo
    by_cases h1 : sk
    · by_cases h2 : pyIsSpace c <;> simp [h1, h2, ih]
    · by_cases h2 : pt && pyIsSpace c <;> simp [h1, h2, ih]

/-- `re.split` always returns at least one piece. -/
theorem sentSplit_ne_nil (s : String) : sentSplit s ≠ [] := by
  unfold sentSplit
  intro h
  exact sentSplitGo_ne_nil s.data false false [] (List.map_eq_nil_iff.mp h)

/-- A non-triggering pair is left unchanged by `fixStep`. -/
theorem fixStep_of_not_trigger (p c : PChunk) (h : triggerB p c = false) :
    fixStep p c = c := by
  unfold triggerB at h
  unfold fixStep
  simp only [h, if_neg]
  rw [if_neg (by simp [h])]

/-- `fixStep` never touches the metadata mapping. -/
theorem fixStep_metadata (p c : PChunk) : (fixStep p c).metadata = c.metadata := by
  unfold fixStep
  dsimp only
  split
  · split <;> rfl
  · rfl

/-- The in-place traversal preserves the list length. -/
theorem fixDocAux_length : ∀ (cs : List PChunk) (prev : PChunk),
    (fixDocAux prev cs).length = cs.length := by
  intro cs
  induction cs with
  | nil => intro prev; rfl
  | cons c rest ih => intro prev; simp [fixDocAux, ih]

/-- The repair pass preserves the list length. -/
theorem fixDoc_length (cs : List PChunk) : (fixDoc cs).length = cs.length := by
  cases cs with
  | nil => rfl
  | cons c rest => simp [fixDoc, fixDocAux_length]

/-- Positional recurrence of the in-place traversal: the record written
at position `j` of the output is `fixStep` of the output at `j-1` (`prev`
for `j = 0`) and the input at `j`. -/
theorem fixDocAux_succ :
    ∀ (cs : List PChunk) (prev : PChunk) (j : Nat) (pOut cIn : PChunk),
      (prev :: fixDocAux prev cs)[j]? = some pOut → cs[j]? = some cIn →
      (fixDocAux prev cs)[j]? = some (fixStep pOut cIn) := by
  intro cs
  induction cs with
  | nil => intro prev j pOut cIn _ h2; simp at h2
  | cons c rest ih =>
    intro prev j pOut cIn h1 h2
    cases j with
    | zero =>
      simp only [List.getElem?_cons_zero, Option.some.injEq] at h1 h2
      subst h1; subst h2
      simp [fixDocAux]
    | succ j =>
      simp only [List.getElem?_cons_succ] at h1 h2
      show (fixStep prev c :: fixDocAux (fixStep prev c) rest)[j + 1]? = _
      simp only [List.getElem?_cons_succ]
      exact ih (fixStep prev c) j pOut cIn h1 h2

/-- The repair pass leaves position 0 unchanged. -/
theorem fixDoc_zero (cs : List PChunk) : (fixDoc cs)[0]? = cs[0]? := by
  cases cs with
  | nil => rfl
  | cons c rest => simp [fixDoc]

/-- Positional recurrence of the repair pass: for `j ≥ 0`, position `j+1`
of the output is `fixStep` of the output at `j` and the input at `j+1` —
the borrowed sentence comes from the current, possibly already rewritten,
state of the previous chunk. -/
theorem fixDoc_succ (cs : List PChunk) (j : Nat) (pOut cIn : PChunk)
    (h1 : (fixDoc cs)[j]? = some pOut) (h2 : cs[j + 1]? = some cIn) :
    (fixDoc cs)[j + 1]? = some (fixStep pOut cIn) := by
  cases cs with
  | nil => simp at h2
  | cons c0 rest =>
    simp only [List.getElem?_cons_succ] at h2
    show (c0 :: fixDocAux c0 rest)[j + 1]? = _
    simp only [List.getElem?_cons_succ]
    exact fixDocAux_succ rest c0 j pOut cIn h1 h2

/-- The repair pass never touches any chunk's metadata. -/
theorem fixDocAux_metadata :
    ∀ (cs : List PChunk) (prev : PChunk) (j : Nat),
      ((fixDocAux prev cs)[j]?).map PChunk.metadata = (cs[j]?).map PChunk.metadata := by
  intro cs
  induction cs with
  | nil => intro prev j; rfl
  | cons c rest ih =>
    intro prev j
    cases j with
    | zero => simp [fixDocAux, fixStep_metadata]
    | succ j =>
      show (fixStep prev c :: fixDocAux (fixStep prev c) rest)[j + 1]?.map _ = _
      simp only [List.getElem?_cons_succ]
      exact ih (fixStep prev c) j

/-- The repair pass never touches any chunk's metadata. -/
theorem fixDoc_metadata (cs : List PChunk) (j : Nat) :
    ((fixDoc cs)[j]?).map PChunk.metadata = (cs[j]?).map PChunk.metadata := by
  cases cs with
  | nil => rfl
  | cons c0 rest =>
    cases j with
    | zero => simp [fixDoc]
    | succ j =>
      show (c0 :: fixDocAux c0 rest)[j + 1]?.map _ = _
      simp only [List.getElem?_cons_succ]
      exact fixDocAux_metadata rest c0 j

/-!
### The trimmed text's final character survives a rewrite
-/

/-- Dropping a prefix does not change the last element, provided
something remains. -/
theorem getLast?_dropWhile (p : Char → Bool) :
    ∀ (l : List Char), l.dropWhile p ≠ [] → (l.dropWhile p).getLast? = l.getLast? := by
  intro l
  induction l with
  | nil => intro h; simp at h
  | cons a t ih =>
    intro h
    by_cases hp : p a
    · rw [List.dropWhile_cons, if_pos hp] at h ⊢
      cases t with
      | nil => simp [List.dropWhile] at h
      | cons b t' => rw [ih h, List.getLast?_cons_cons]
    · rw [List.dropWhile_cons, if_neg hp]

/-- The first survivor of a `dropWhile` fails the predicate. -/
theorem head?_dropWhile_false (p : Char → Bool) :
    ∀ (l : List Char) (a : Char), (l.dropWhile p).head? = some a → p a = false := by
  intro l
  induction l with
  | nil => intro a h; simp at h
  | cons c t ih =>
    intro a h
    by_cases hp : p c
    · rw [List.dropWhile_cons, if_pos hp] at h
      exact ih a h
    · rw [List.dropWhile_cons, if_neg hp] at h
      simp only [List.head?_cons, Option.some.injEq] at h
      cases hpc : p c with
      | true => exact absurd hpc hp
      | false => rw [← h]; exact hpc

/-- A stripped string never ends in whitespace. -/
theorem stripList_getLast?_nonspace :
    ∀ (l : List Char) (ch : Char),
      (stripList l).getLast? = some ch → pyIsSpace ch = false := by
  intro l ch h
  unfold stripList at h
  rw [List.getLast?_reverse] at h
  exact head?_dropWhile_false pyIsSpace _ ch h

/-- Stripping does not change the final character when it is not
whitespace. -/
theorem stripList_getLast?_of_nonspace (l : List Char) (ch : Char)
    (h1 : l.getLast? = some ch) (h2 : pyIsSpace ch = false) :
    (stripList l).getLast? = some ch := by
  unfold stripList
  have hmem : ch ∈ l := by
    rcases List.mem_getLast?_eq_getLast (Option.mem_def.mpr h1) with ⟨hne, heq⟩
    rw [heq]
    exact List.getLast_mem hne
  have hne1 : l.dropWhile pyIsSpace ≠ [] := by
    intro hnil
    have := List.dropWhile_eq_nil_iff.mp hnil ch hmem
    rw [h2] at this
    exact Bool.false_ne_true this
  have hlast1 : (l.dropWhile pyIsSpace).getLast? = some ch :=
    (getLast?_dropWhile pyIsSpace l hne1).trans h1
  have hhead : (l.dropWhile pyIsSpace).reverse.head? = some ch := by
    rw [List.head?_reverse]; exact hlast1
  obtain ⟨t, ht⟩ : ∃ t, (l.dropWhile pyIsSpace).reverse = ch :: t := by
    cases hrev : (l.dropWhile pyIsSpace).reverse with
    | nil => rw [hrev] at hhead; simp at hhead
    | cons x t =>
      rw [hrev] at hhead
      simp only [List.head?_cons, Option.some.injEq] at hhead
      exact ⟨t, by rw [hhead]⟩
  rw [ht, List.dropWhile_cons, h2]
  simp only [Bool.false_eq_true, if_neg, List.getLast?_reverse]
  rfl

/-- Rewriting a chunk preserves whether its trimmed text ends in terminal
punctuation: the rewrite prepends text but keeps the trimmed tail. -/
theorem endsPunctB_fixStep (p c : PChunk) :
    endsPunctB (pyStrip (fixStep p c).text) = endsPunctB (pyStrip c.text) := by
  unfold fixStep
  by_cases htr : startsLowercaseB (pyStrip c.text) && !endsPunctB (pyStrip p.text)
  · simp only [htr, if_pos rfl]
    cases hls : (sentSplit (pyStrip p.text)).getLast? with
    | none => rfl
    | some ls =>
      have hne : (pyStrip c.text).data ≠ [] := by
        have hsl : startsLowercaseB (pyStrip c.text) = true := by
          simp only [Bool.and_eq_true] at htr
          exact htr.1
        unfold startsLowercaseB at hsl
        cases hd : (pyStrip c.text).data with
        | nil => rw [hd] at hsl; simp at hsl
        | cons x t => simp [hd]
      obtain ⟨ch, hch⟩ : ∃ ch, (pyStrip c.text).data.getLast? = some ch := by
        cases hd : (pyStrip c.text).data with
        | nil => exact absurd hd hne
        | cons x t => exact ⟨(x :: t).getLast (by simp), by rw [List.getLast?_eq_getLast]⟩
      have hchns : pyIsSpace ch = false := by
        have : (stripList c.text.data).getLast? = some ch := hch
        exact stripList_getLast?_nonspace c.text.data ch this
      have hdata :
          (pyStrip ls ++ " " ++ pyStrip c.text).data.getLast? = some ch := by
        rw [String.data_append, List.getLast?_append, hch]
        rfl
      have hstr :
          (stripList (pyStrip ls ++ " " ++ pyStrip c.text).data).getLast? = some ch :=
        stripList_getLast?_of_nonspace _ ch hdata hchns
      show endsPunctB (pyStrip (pyStrip ls ++ " " ++ pyStrip c.text)) = _
      unfold endsPunctB pyStrip
      show (match (stripList (pyStrip ls ++ " " ++ pyStrip c.text).data).getLast? with
            | some c => isTermChar c
            | none => false) = _
      rw [hstr]
      have hch3 : (stripList c.text.data).getLast? = some ch := hch
      simp only [hch3]
  · simp only [htr, if_neg]
    rw [if_neg (by simp_all)]

/-- The final ending-punctuation state of any position equals that of the
corresponding input chunk. -/
theorem fixDoc_endsPunct (cs : List PChunk) (i : Nat) (a b : PChunk)
    (h1 : cs[i]? = some a) (h2 : (fixDoc cs)[i]? = some b) :
    endsPunctB (pyStrip b.text) = endsPunctB (pyStrip a.text) := by
  cases i with
  | zero =>
    rw [fixDoc_zero, h1] at h2
    injection h2 with h2
    rw [← h2]
  | succ j =>
    have hj : j < cs.length := by
      have : j + 1 < cs.length := by
        by_contra hcon
        rw [List.getElem?_eq_none (by omega)] at h1
        exact Option.noConfusion h1
      omega
    have hj' : j < (fixDoc cs).length := by rw [fixDoc_length]; exact hj
    obtain ⟨pOut, hpOut⟩ : ∃ x, (fixDoc cs)[j]? = some x :=
      ⟨(fixDoc cs)[j], List.getElem?_eq_getElem hj'⟩
    have := fixDoc_succ cs j pOut a hpOut h1
    rw [this] at h2
    injection h2 with h2
    rw [← h2]
    exact endsPunctB_fixStep pOut a

/-- A `noTrigAux`-clean traversal changes nothing. -/
theorem fixDocAux_of_noTrig : ∀ (cs : List PChunk) (p : PChunk),
    noTrigAux p cs = true → fixDocAux p cs = cs := by
  intro cs
  induction cs with
  | nil => intro p _; rfl
  | cons c rest ih =>
    intro p h
    unfold noTrigAux at h
    simp only [Bool.and_eq_true] at h
    have hc : fixStep p c = c := by
      apply fixStep_of_not_trigger
      cases ht : triggerB p c
      · rfl
      · rw [ht] at h; simp at h
    show fixStep p c :: fixDocAux (fixStep p c) rest = c :: rest
    rw [hc, ih c h.2]

/-- A trigger-free chunk list is a fixed point of the repair pass. -/
theorem fixDoc_of_noTrig (cs : List PChunk) (h : noTriggerList cs = true) :
    fixDoc cs = cs := by
  cases cs with
  | nil => rfl
  | cons c rest =>
    show c :: fixDocAux c rest = c :: rest
    rw [fixDocAux_of_noTrig rest c h]

/-- Claim C4 (amended): a second run of the repair pass leaves every
chunk unchanged provided the once-repaired output contains no adjacent
pair that still satisfies the rewrite condition; the counterexample shows
this proviso is necessary — without it a second run can rewrite again. -/
theorem claim_C4_amended :
    ∀ (docs : List (String × List PChunk)), noRetrigger docs = true →
      fix_overlap_in_chunks (fix_overlap_in_chunks docs) = fix_overlap_in_chunks docs := by
  intro docs h
  unfold noRetrigger at h
  rw [List.all_eq_true] at h
  have hfix : ∀ q ∈ fix_overlap_in_chunks docs,
      (fun doc => (doc.1, if doc.2.length < 2 then doc.2 else fixDoc doc.2)) q = q := by
    intro q hq
    have hnt : noTriggerList q.2 = true := h q hq
    by_cases hlen : q.2.length < 2
    · simp only [if_pos hlen]
    · simp only [if_neg hlen, fixDoc_of_noTrig q.2 hnt]
  show (fix_overlap_in_chunks docs).map
      (fun doc => (doc.1, if doc.2.length < 2 then doc.2 else fixDoc doc.2)) =
    fix_overlap_in_chunks docs
  rw [List.map_congr_left hfix, List.map_id']

/-- Witness for the amended C4: a document whose repaired form has no
remaining trigger is a fixed point of a second run. -/
theorem claim_C4_amended_witness :
    fix_overlap_in_chunks (fix_overlap_in_chunks
        [("d", [⟨"One.", []⟩, ⟨"two.", []⟩])]) =
      fix_overlap_in_chunks [("d", [⟨"One.", []⟩, ⟨"two.", []⟩])] :=
  claim_C4_amended [("d", [⟨"One.", []⟩, ⟨"two.", []⟩])] (by decide)

/-- Claim C3 (amended): during a single left-to-right run, the record
written at index `i+1` is `fixStep` of the **output** at index `i` — the
previous chunk as already processed, which step `i` may have rewritten —
not of the original chunk `i`; however, the ending-punctuation half of
the repair decision is unchanged by any such rewrite, because a rewrite
preserves the trimmed text's final character. -/
theorem claim_C3_amended :
    ∀ (cs : List PChunk) (i : Nat) (prevIn prevOut cIn : PChunk),
      cs[i]? = some prevIn → (fixDoc cs)[i]? = some prevOut → cs[i + 1]? = some cIn →
      (fixDoc cs)[i + 1]? = some (fixStep prevOut cIn) ∧
      endsPunctB (pyStrip prevOut.text) = endsPunctB (pyStrip prevIn.text) := by
  intro cs i prevIn prevOut cIn h1 h2 h3
  exact ⟨fixDoc_succ cs i prevOut cIn h2 h3,
         fixDoc_endsPunct cs i prevIn prevOut h1 h2⟩

/-- Witness for the amended C3 at a concrete two-chunk document. -/
theorem claim_C3_amended_witness :
    (fixDoc [⟨"Alpha. beta", []⟩, ⟨"gamma delta.", []⟩])[0 + 1]? =
      some (fixStep ⟨"Alpha. beta", []⟩ ⟨"gamma delta.", []⟩) ∧
    endsPunctB (pyStrip "Alpha. beta") = endsPunctB (pyStrip "Alpha. beta") :=
  claim_C3_amended [⟨"Alpha. beta", []⟩, ⟨"gamma delta.", []⟩] 0
    ⟨"Alpha. beta", []⟩ ⟨"Alpha. beta", []⟩ ⟨"gamma delta.", []⟩ rfl rfl rfl

/-- Claim C5: a document with fewer than 2 chunks passes through the
repair unchanged; for longer documents, position `j+1` of the output is
rewritten to "last sentence of the previous chunk's trimmed text, a
space, own trimmed text" exactly when its trimmed text starts lowercase
(not a digit) and the previous chunk's trimmed text does not end in
`.`/`!`/`?`, and the metadata mapping is never touched. -/
theorem claim_C5_repair_step :
    ∀ (docs : List (String × List PChunk)) (i : Nat) (p : String × List PChunk),
      docs[i]? = some p →
      (p.2.length < 2 → (fix_overlap_in_chunks docs)[i]? = some p) ∧
      (2 ≤ p.2.length → (fix_overlap_in_chunks docs)[i]? = some (p.1, fixDoc p.2)) ∧
      (∀ (j : Nat) (pOut cIn c' : PChunk),
        (fixDoc p.2)[j]? = some pOut → p.2[j + 1]? = some cIn →
        (fixDoc p.2)[j + 1]? = some c' →
        (c'.text =
          if startsLowercaseB (pyStrip cIn.text) && !endsPunctB (pyStrip pOut.text) then
            pyStrip ((sentSplit (pyStrip pOut.text)).getLastD "") ++ " " ++ pyStrip cIn.text
          else cIn.text) ∧
        c'.metadata = cIn.metadata) := by
  intro docs i p hp
  refine ⟨?_, ?_, ?_⟩
  · intro hlen
    show (docs.map _)[i]? = some p
    rw [List.getElem?_map, hp]
    simp only [Option.map_some', if_pos hlen, Prod.mk.eta]
  · intro hlen
    show (docs.map _)[i]? = some (p.1, fixDoc p.2)
    rw [List.getElem?_map, hp]
    simp only [Option.map_some', if_neg (by omega : ¬ p.2.length < 2)]
  · intro j pOut cIn c' h1 h2 h3
    have hstep := fixDoc_succ p.2 j pOut cIn h1 h2
    rw [hstep] at h3
    injection h3 with h3
    subst h3
    obtain ⟨ls, hls⟩ : ∃ ls, (sentSplit (pyStrip pOut.text)).getLast? = some ls := by
      cases hsp : sentSplit (pyStrip pOut.text) with
      | nil => exact absurd hsp (sentSplit_ne_nil _)
      | cons a t => exact ⟨(a :: t).getLast (by simp), List.getLast?_eq_getLast _ _⟩
    have hlsD : (sentSplit (pyStrip pOut.text)).getLastD "" = ls := by
      rw [List.getLastD_eq_getLast?, hls]
      rfl
    constructor
    · unfold fixStep
      dsimp only
      by_cases htr : startsLowercaseB (pyStrip cIn.text) && !endsPunctB (pyStrip pOut.text)
      · rw [if_pos htr, hls, if_pos htr, hlsD]
      · rw [if_neg htr, if_neg htr]
    · exact fixStep_metadata pOut cIn

/-- Witness for C5: a one-chunk document passes through unchanged, a
two-chunk document is rewritten by `fixDoc`, and its second chunk's text
and metadata obey the step characterization. -/
theorem claim_C5_repair_step_witness :
    ((fix_overlap_in_chunks [("a", [⟨"solo", []⟩]), ("b", [⟨"Alpha. beta", []⟩, ⟨"gamma delta.", []⟩])])[0]? =
      some ("a", [⟨"solo", []⟩])) ∧
    ((fix_overlap_in_chunks [("a", [⟨"solo", []⟩]), ("b", [⟨"Alpha. beta", []⟩, ⟨"gamma delta.", []⟩])])[1]? =
      some ("b", fixDoc [⟨"Alpha. beta", []⟩, ⟨"gamma delta.", []⟩])) ∧
    (("beta gamma delta." : String) =
      (if startsLowercaseB (pyStrip "gamma delta.") && !endsPunctB (pyStrip "Alpha. beta") then
        pyStrip ((sentSplit (pyStrip "Alpha. beta")).getLastD "") ++ " " ++ pyStrip "gamma delta."
      else "gamma delta.") ∧
     ([] : List (String × String)) = []) :=
  ⟨(claim_C5_repair_step
      [("a", [⟨"solo", []⟩]), ("b", [⟨"Alpha. beta", []⟩, ⟨"gamma delta.", []⟩])] 0
      ("a", [⟨"solo", []⟩]) rfl).1 (by decide),
   (claim_C5_repair_step
      [("a", [⟨"solo", []⟩]), ("b", [⟨"Alpha. beta", []⟩, ⟨"gamma delta.", []⟩])] 1
      ("b", [⟨"Alpha. beta", []⟩, ⟨"gamma delta.", []⟩]) rfl).2.1 (by decide),
   (claim_C5_repair_step
      [("a", [⟨"solo", []⟩]), ("b", [⟨"Alpha. beta", []⟩, ⟨"gamma delta.", []⟩])] 1
      ("b", [⟨"Alpha. beta", []⟩, ⟨"gamma delta.", []⟩]) rfl).2.2 0
      ⟨"Alpha. beta", []⟩ ⟨"gamma delta.", []⟩ ⟨"beta gamma delta.", []⟩ rfl rfl rfl⟩

/-- Claim C3 counterexample: in the in-place left-to-right pass, chunk 1
is rewritten at step 1 and then read as `prev` at step 2, so the sentence
borrowed for chunk 2 is `"alpha beta gamma delta"`, not the last sentence
`"gamma delta"` of chunk 1's original text as the claim requires. -/
theorem claim_C3_counterexample :
    fix_overlap_in_chunks
        [("d", [⟨"alpha beta", []⟩, ⟨"gamma delta", []⟩, ⟨"epsilon zeta.", []⟩])] =
      [("d", [⟨"alpha beta", []⟩, ⟨"alpha beta gamma delta", []⟩,
              ⟨"alpha beta gamma delta epsilon zeta.", []⟩])] ∧
    ("alpha beta gamma delta epsilon zeta." : String) ≠
      pyStrip ((sentSplit (pyStrip "gamma delta")).getLastD "") ++ " " ++
        pyStrip "epsilon zeta." := by
  refine ⟨by decide, by decide⟩

/-- Claim C4 counterexample: running the repair pass twice on
`[⟨"Alpha. beta"⟩, ⟨"gamma delta."⟩]` is not the same as running it once —
the borrowed sentence `"beta"` itself starts lowercase, so the second run
prepends it again. -/
theorem claim_C4_counterexample :
    fix_overlap_in_chunks (fix_overlap_in_chunks
        [("d", [⟨"Alpha. beta", []⟩, ⟨"gamma delta.", []⟩])]) ≠
      fix_overlap_in_chunks [("d", [⟨"Alpha. beta", []⟩, ⟨"gamma delta.", []⟩])] := by
  decide

/-- Claim C9 (amended): blank (whitespace-only) lines are skipped
wherever they occur, not only at the start of the document; a non-blank
non-heading line is appended to the open section's buffer **after
stripping** its leading and trailing whitespace, not verbatim; and lines
arriving while no section is open are dropped. -/
theorem claim_C9_amended :
    ∀ (st : PState) (l : String),
      (pyStrip l = "" → parseStep st l = st) ∧
      (∀ sec, st.current = some sec → pyStrip l ≠ "" →
        acceptedHeading (pyStrip l) = false →
        parseStep st l = { st with buf := st.buf ++ [pyStrip l] }) ∧
      (st.current = none → acceptedHeading (pyStrip l) = false →
        parseStep st l = st) := by
  intro st l
  refine ⟨?_, ?_, ?_⟩
  · intro h
    unfold parseStep
    rw [if_pos h]
  · intro sec hcur hne hacc
    unfold parseStep
    rw [if_neg hne]
    unfold acceptedHeading at hacc
    cases hm : headerMatch (pyStrip l) with
    | none =>
      simp only [hm]
      unfold addContent
      rw [hcur]
    | some nt =>
      rw [hm] at hacc
      have hna : ¬ ((pyStrip nt.2).length < 200 ∧ (pyStrip nt.2).data.count '.' ≤ 1) := by
        simpa using hacc
      simp only [hm, if_neg hna]
      unfold addContent
      rw [hcur]
  · intro hcur hacc
    unfold parseStep
    by_cases h : pyStrip l = ""
    · rw [if_pos h]
    · rw [if_neg h]
      unfold acceptedHeading at hacc
      cases hm : headerMatch (pyStrip l) with
      | none =>
        simp only [hm]
        unfold addContent
        rw [hcur]
      | some nt =>
        rw [hm] at hacc
        have hna : ¬ ((pyStrip nt.2).length < 200 ∧ (pyStrip nt.2).data.count '.' ≤ 1) := by
          simpa using hacc
        simp only [hm, if_neg hna]
        unfold addContent
        rw [hcur]

/-- Witness for the amended C9: a blank line is skipped mid-document, an
indented content line is appended stripped, and a pre-heading line is
dropped. -/
theorem claim_C9_amended_witness :
    (parseStep ⟨[], some ⟨1, "1.", "T", "", ""⟩, ["x"]⟩ "   " =
      ⟨[], some ⟨1, "1.", "T", "", ""⟩, ["x"]⟩) ∧
    (parseStep ⟨[], some ⟨1, "1.", "T", "", ""⟩, ["x"]⟩ "  hello  " =
      { (⟨[], some ⟨1, "1.", "T", "", ""⟩, ["x"]⟩ : PState) with buf := ["x"] ++ [pyStrip "  hello  "] }) ∧
    (parseStep ⟨[], none, []⟩ "orphan line" = ⟨[], none, []⟩) :=
  ⟨(claim_C9_amended ⟨[], some ⟨1, "1.", "T", "", ""⟩, ["x"]⟩ "   ").1 (by decide),
   (claim_C9_amended ⟨[], some ⟨1, "1.", "T", "", ""⟩, ["x"]⟩ "  hello  ").2.1
     ⟨1, "1.", "T", "", ""⟩ rfl (by decide) (by decide),
   (claim_C9_amended ⟨[], none, []⟩ "orphan line").2.2 rfl (by decide)⟩

/-- Claim C9 counterexample: the content line `"  a  "` is appended in
stripped form `"a"`, and the interior blank line is skipped, so the
section content is `"a\nb"`, not the verbatim accumulation
`"a  \n\nb"` that the claim predicts. -/
theorem claim_C9_counterexample :
    parse_sections "1. T\n  a  \n\nb" =
      [{ level := 1, number := "1.", title := "T", content := "a\nb", parent_path := "" }] ∧
    ("a\nb" : String) ≠ pyStrip (String.intercalate "\n" ["  a  ", "", "b"]) := by
  refine ⟨by decide, by decide⟩

/-- Claim C10: on a content string beginning with a 202-character
whitespace-free run and base size 201, the backward snap moves the first
chunk's end to 0 = start, so the emitted chunk's body excerpt is empty and
its `text` is exactly the title/keyword header — still nonempty. -/
theorem claim_C10_empty_body :
    ∃ c0 rest,
      create_adaptive_chunks 205 (String.mk (List.replicate 202 'a') ++ " b") "T" ["k"] 201 =
        some (c0 :: rest) ∧
      c0.text = chunkHeader "T" ["k"] ++ String.mk (pySlice (String.mk (List.replicate 202 'a') ++ " b").data 0 0) ∧
      c0.text = "T\n\nКлючевые слова: k\n\n" ∧
      c0.text ≠ "" ∧
      rest.length = 1 := by
  set_option maxRecDepth 10000 in
  refine ⟨{ text := "T\n\nКлючевые слова: k\n\n", section_path := "T",
            hierarchy_level := 1, section_title := "T", keywords := ["k"],
            overlap_info := none },
          [{ text := "T\n\nКлючевые слова: k\n\n b", section_path := "T",
             hierarchy_level := 1, section_title := "T", keywords := ["k"],
             overlap_info := some { overlap_size := 0, previous_chunk_end := "" } }],
          by decide, by decide, by decide, by decide, by decide⟩

/-- A loop entered at or beyond the content end returns the accumulator. -/
theorem chunkLoop_tail (content : List Char) (title : String) (kws : List String)
    (base : Nat) :
    ∀ (fuel start : Nat) (acc cs : List HierarchicalChunk),
      chunkLoop content title kws base fuel start acc = some cs →
      content.length ≤ start → cs = acc := by
  intro fuel
  cases fuel with
  | zero => intro start acc cs h _; simp [chunkLoop] at h
  | succ n =>
    intro start acc cs h hs
    unfold chunkLoop at h
    rw [if_neg (by omega)] at h
    injection h with h
    exact h.symm

/-- Every chunk the multi-chunk loop emits is `mkChunk` at some strictly
increasing sequence of start offsets below the content length, the first
being the entry offset. -/
theorem chunkLoop_shape (content : List Char) (title : String) (kws : List String)
    (base : Nat) (hb : 200 < base) :
    ∀ (fuel start : Nat) (acc cs : List HierarchicalChunk),
      chunkLoop content title kws base fuel start acc = some cs →
      start < content.length →
      ∃ rest, cs = acc ++ mkChunk content title kws base start :: rest ∧
        ∀ c ∈ rest, ∃ s, start < s ∧ s < content.length ∧
          c = mkChunk content title kws base s := by
  intro fuel
  induction fuel with
  | zero => intro start acc cs h _; simp [chunkLoop] at h
  | succ n ih =>
    intro start acc cs h hs
    unfold chunkLoop at h
    rw [if_pos hs] at h
    by_cases he : content.length ≤ chunkEnd content base start
    · rw [if_pos he] at h
      injection h with h
      exact ⟨[], by rw [← h], by intro c hc; cases hc⟩
    · rw [if_neg he] at h
      by_cases hn : nextStart content base start < content.length
      · rcases ih (nextStart content base start) _ cs h hn with ⟨rest', hcs, hrest⟩
        refine ⟨mkChunk content title kws base (nextStart content base start) :: rest', ?_, ?_⟩
        · rw [hcs]; simp
        · intro c hc
          rcases List.mem_cons.mp hc with rfl | hc'
          · exact ⟨nextStart content base start, nextStart_gt content base start hb, hn, rfl⟩
          · rcases hrest c hc' with ⟨s, hs1, hs2, hs3⟩
            exact ⟨s, Nat.lt_trans (nextStart_gt content base start hb) hs1, hs2, hs3⟩
      · have hcs := chunkLoop_tail content title kws base n _ _ cs h (by omega)
        exact ⟨[], by rw [hcs], by intro c hc; cases hc⟩

/-- Claim C8: in a multi-chunk split, `overlap_info` is absent from the
first chunk and present on every later chunk, where it records
`min(200, ⌊(L - start) * 0.15⌋)` computed at that chunk's own start and
the literal content substring `[start - overlap, start)`; the overlap
text is not injected into the chunk's `text`, which is exactly the
header followed by the chunk's own body excerpt. -/
theorem claim_C8_overlap_info :
    ∀ (content title : String) (kws : List String) (base : Nat)
      (cs : List HierarchicalChunk),
      200 < base → base < content.length →
      create_adaptive_chunks (content.length + 1) content title kws base = some cs →
      (∀ c0, cs.head? = some c0 → c0.overlap_info = none) ∧
      (∀ i c, 1 ≤ i → cs[i]? = some c →
        ∃ s, 0 < s ∧ s < content.length ∧
          c.overlap_info = some
            { overlap_size := min 200 (3 * (content.length - s) / 20),
              previous_chunk_end := String.mk (pySlice content.data
                (s - min 200 (3 * (content.length - s) / 20)) s) } ∧
          c.text = chunkHeader title kws ++
            String.mk (pySlice content.data s (chunkEnd content.data base s))) := by
  intro content title kws base cs hb hlen h
  unfold create_adaptive_chunks at h
  by_cases h1 : pyStrip content = ""
  · rw [if_pos h1] at h
    injection h with h
    subst h
    constructor
    · intro c0 hc0
      simp at hc0
    · intro i c _ hc
      simp at hc
  · rw [if_neg h1] at h
    rw [if_neg (by omega)] at h
    have h0 : (0 : Nat) < content.data.length := by
      show (0 : Nat) < content.length
      omega
    rcases chunkLoop_shape content.data title kws base hb _ 0 [] cs h h0 with
      ⟨rest, hcs, hrest⟩
    subst hcs
    constructor
    · intro c0 hc0
      simp only [List.nil_append, List.head?_cons, Option.some.injEq] at hc0
      subst hc0
      rfl
    · intro i c hi hc
      obtain ⟨j, rfl⟩ : ∃ j, i = j + 1 := ⟨i - 1, by omega⟩
      simp only [List.nil_append, List.getElem?_cons_succ] at hc
      rcases hrest c (List.getElem?_mem hc) with ⟨s, hs1, hs2, rfl⟩
      refine ⟨s, hs1, hs2, ?_, rfl⟩
      simp only [mkChunk, if_pos hs1]
      rfl

/-- Claim C7: empty or whitespace-only content yields an empty chunk
list; content no longer than the base size (equality included) yields
exactly one chunk whose text is the title, two newlines,
`"Ключевые слова: "` with the comma-joined keywords, two newlines, and
the content, with no `overlap_info`. -/
theorem claim_C7_small_content :
    ∀ (fuel : Nat) (content title : String) (kws : List String) (base : Nat),
      (pyStrip content = "" →
        create_adaptive_chunks fuel content title kws base = some []) ∧
      (pyStrip content ≠ "" → content.length ≤ base →
        create_adaptive_chunks fuel content title kws base =
          some [{ text := title ++ "\n\nКлючевые слова: " ++ commaJoin kws ++ "\n\n" ++ content,
                  section_path := title, hierarchy_level := 1,
                  section_title := title, keywords := kws, overlap_info := none }]) := by
  intro fuel content title kws base
  constructor
  · intro h
    simp [create_adaptive_chunks, h]
  · intro h1 h2
    simp only [create_adaptive_chunks, if_neg h1, if_pos h2, chunkHeader,
      String.append_assoc]

/-- Witness for C7 at concrete inputs. -/
theorem claim_C7_small_content_witness :
    (create_adaptive_chunks 3 " \t " "T" [] 1250 = some []) ∧
    (create_adaptive_chunks 6 "hello" "T" ["k1", "k2"] 1250 =
      some [{ text := "T" ++ "\n\nКлючевые слова: " ++ commaJoin ["k1", "k2"] ++ "\n\n" ++ "hello",
              section_path := "T", hierarchy_level := 1,
              section_title := "T", keywords := ["k1", "k2"], overlap_info := none }]) :=
  ⟨(claim_C7_small_content 3 " \t " "T" [] 1250).1 (by decide),
   (claim_C7_small_content 6 "hello" "T" ["k1", "k2"] 1250).2 (by decide) (by decide)⟩

set_option maxRecDepth 20000 in
/-- Witness for C8: the first chunk of a concrete 209-character
multi-chunk split carries no `overlap_info`. -/
theorem claim_C8_overlap_info_witness :
    (((create_adaptive_chunks
        ((String.intercalate " " (List.replicate 10 "12345678901234567890")).length + 1)
        (String.intercalate " " (List.replicate 10 "12345678901234567890"))
        "T" ["k"] 201).getD []).headD ⟨"", "", 0, "", [], none⟩).overlap_info = none :=
  (claim_C8_overlap_info
    (String.intercalate " " (List.replicate 10 "12345678901234567890")) "T" ["k"] 201
    ((create_adaptive_chunks
        ((String.intercalate " " (List.replicate 10 "12345678901234567890")).length + 1)
        (String.intercalate " " (List.replicate 10 "12345678901234567890"))
        "T" ["k"] 201).getD [])
    (by decide) (by decide) rfl).1
    (((create_adaptive_chunks
        ((String.intercalate " " (List.replicate 10 "12345678901234567890")).length + 1)
        (String.intercalate " " (List.replicate 10 "12345678901234567890"))
        "T" ["k"] 201).getD []).headD ⟨"", "", 0, "", [], none⟩) rfl
